import Mathlib

/-!
# Verification of the block symmetric Toeplitz / circulant matrix core

This file gives a shallow embedding of `capytaine/matrices/block_toeplitz_matrices.py`
and proves properties of its index grids, its circulant-embedding matrix-vector
multiply and its Fourier-domain multiplication algorithm.

Modelling conventions:
* numpy blocks are modelled as total functions `ℕ → ℕ → F` over a field `F`
  (only indices below the block shape `(r, c)` are ever relevant); a stored block
  row is `ℕ → ℕ → ℕ → F` (block index, then row, then column).
* Vectors handed to `__matmul__` are Lean lists; results are lists.  Machine
  floats are modelled by exact field arithmetic (`ℂ` for the claims about the
  numpy FFT, whose twiddle factor is `exp (-2πi/M)`).
* `__matmul__` returning `NotImplemented` and numpy raising `ValueError`
  (negative-size `np.zeros`, impossible `reshape`) are modelled by the
  `PyResult` type.
* Python list slicing (`line[-i:] + line[:-i]`, `[:n]`), `range`, list reversal
  and `np.concatenate` are translated literally to `List` operations.
-/

namespace Capytaine

/-- Python `abs(i - j)` on nonnegative integers. -/
def absDiff (i j : ℕ) : ℕ := ((i : ℤ) - (j : ℤ)).natAbs

/-- `BlockSymmetricToeplitzMatrix._index_grid`:
`[[abs(i-j) for i in range(n)] for j in range(n)]` (outer index `j` is the row). -/
def toeplitzIndexGrid (n : ℕ) : List (List ℕ) :=
  (List.range n).map fun j => (List.range n).map fun i => absDiff i j

/-- Entry `(i, j)` of the Toeplitz index grid (row `i`, column `j`). -/
def toeplitzGridEntry (n i j : ℕ) : ℕ :=
  ((toeplitzIndexGrid n).getD i []).getD j 0

/-- `EvenBlockSymmetricCirculantMatrix.__init__`:
`self._nb_blocks = (self._stored_nb_blocks[1] - 1) * 2`. -/
def evenNbBlocks (ns : ℕ) : ℕ := (ns - 1) * 2

/-- `OddBlockSymmetricCirculantMatrix.__init__`:
`self._nb_blocks = self._stored_nb_blocks[1] * 2 - 1`. -/
def oddNbBlocks (ns : ℕ) : ℕ := ns * 2 - 1

/-- `EvenBlockSymmetricCirculantMatrix._baseline_grid`:
`blocks_indices[:-1] + blocks_indices[1:][::-1]` for `blocks_indices = list(range(ns))`. -/
def evenBaseline (ns : ℕ) : List ℕ :=
  (List.range ns).dropLast ++ ((List.range ns).drop 1).reverse

/-- `OddBlockSymmetricCirculantMatrix._baseline_grid`:
`blocks_indices[:] + blocks_indices[1:][::-1]`. -/
def oddBaseline (ns : ℕ) : List ℕ :=
  List.range ns ++ ((List.range ns).drop 1).reverse

/-- Python `line[-i:] + line[:-i]` (for `1 ≤ i ≤ len(line)`): rotate right by `i`. -/
def rotateRight (l : List ℕ) (i : ℕ) : List ℕ :=
  l.drop (l.length - i) ++ l.take (l.length - i)

/-- `AbstractBlockSymmetricCirculantMatrix._index_grid`: first row is the baseline
grid, then `m - 1` successive right rotations. -/
def circulantIndexGrid (m : ℕ) (line : List ℕ) : List (List ℕ) :=
  line :: (List.range (m - 1)).map fun k => rotateRight line (k + 1)

/-- Entry `(i, j)` of a circulant index grid. -/
def circGridEntry (m : ℕ) (line : List ℕ) (i j : ℕ) : ℕ :=
  ((circulantIndexGrid m line).getD i []).getD j 0

/-- `np.fft.fft(AA, axis=0)` on the stacked first block line:
entry `(t, s)` of frequency `k` is `∑ g, ζ^(g k) ⬝ A g t s` with `ζ = exp (-2πi/m)`. -/
def fftBlockStack {F : Type} [Field F] (m : ℕ) (ζ : F)
    (A : ℕ → ℕ → ℕ → F) (k t s : ℕ) : F :=
  ∑ g ∈ Finset.range m, ζ ^ (g * k) * A g t s

/-- `np.fft.fft` of the reshaped input vector along the block axis. -/
def fftVector {F : Type} [Field F] (m : ℕ) (ζ : F)
    (b : ℕ → ℕ → F) (k s : ℕ) : F :=
  ∑ g ∈ Finset.range m, ζ ^ (g * k) * b g s

/-- The Fourier-domain multiply of `AbstractBlockSymmetricCirculantMatrix.__matmul__`:
per-frequency matrix product of the transformed block stack with the transformed
vector, followed by the inverse transform (`ifft` divides by `m` and uses the
conjugate twiddle `ζ⁻¹`).  `c` is the contraction (block-column) dimension. -/
def circulantMulFFT {F : Type} [Field F] (m c : ℕ) (ζ : F)
    (A : ℕ → ℕ → ℕ → F) (b : ℕ → ℕ → F) (i t : ℕ) : F :=
  (m : F)⁻¹ * ∑ k ∈ Finset.range m, (ζ⁻¹) ^ (i * k) *
    ∑ s ∈ Finset.range c, fftBlockStack m ζ A k t s * fftVector m ζ b k s

/-- Entry `(p, q)` of the dense matrix materialized from a circulant view's
`index_grid` (blocks of shape `(r, c)`). -/
def circulantDenseEntry {F : Type} [Field F] (m r c : ℕ) (line : List ℕ)
    (stored : ℕ → ℕ → ℕ → F) (p q : ℕ) : F :=
  stored (circGridEntry m line (p / r) (q / c)) (p % r) (q % c)

/-- Dense reference product of the fully materialized circulant matrix with a vector. -/
def circulantDenseMulVec {F : Type} [Field F] (m r c : ℕ) (line : List ℕ)
    (stored : ℕ → ℕ → ℕ → F) (v : ℕ → F) (p : ℕ) : F :=
  ∑ q ∈ Finset.range (m * c), circulantDenseEntry m r c line stored p q * v q

/-- Entry `(p, q)` of the dense matrix materialized from `all_blocks` of a
Toeplitz view (blocks looked up through `_index_grid`). -/
def toeplitzDenseEntry {F : Type} [Field F] (n r c : ℕ)
    (stored : ℕ → ℕ → ℕ → F) (p q : ℕ) : F :=
  stored (toeplitzGridEntry n (p / r) (q / c)) (p % r) (q % c)

/-- Dense reference product of the fully materialized Toeplitz matrix with a vector. -/
def toeplitzDenseMulVec {F : Type} [Field F] (n r c : ℕ)
    (stored : ℕ → ℕ → ℕ → F) (v : ℕ → F) (p : ℕ) : F :=
  ∑ q ∈ Finset.range (n * c), toeplitzDenseEntry n r c stored p q * v q

/-- The operand of Python `__matmul__`: either a rank-1 numeric array (a list)
or some other object (another matrix type, a higher-rank array, ...). -/
inductive PyOperand (F : Type) where
  | vec : List F → PyOperand F
  | other : PyOperand F

/-- Outcome of a Python `__matmul__` call: a value, the `NotImplemented`
sentinel, or a raised `ValueError` (negative-size `np.zeros` or an impossible
`np.reshape`). -/
inductive PyResult (F : Type) where
  | ok : List F → PyResult F
  | notImplemented : PyResult F
  | valueError : PyResult F

/-- `AbstractBlockSymmetricCirculantMatrix.__matmul__` for a view with `m`
logical blocks of shape `(r, c)` whose first block line is
`stored[line[g]]`.  A non-vector operand or a length mismatch with
`shape[1] = m*c` yields `NotImplemented`.  The input vector is reshaped to
`AAt.shape[:2] + (1,) = (m, r, 1)`, which raises `ValueError` unless
`m*c = m*r`; the result is flattened to length `m*r`. -/
def circulantMatmul {F : Type} [Field F] (m r c : ℕ) (ζ : F) (line : List ℕ)
    (stored : ℕ → ℕ → ℕ → F) (op : PyOperand F) : PyResult F :=
  match op with
  | PyOperand.other => PyResult.notImplemented
  | PyOperand.vec l =>
    if l.length = m * c then
      if m * c = m * r then
        PyResult.ok ((List.range (m * r)).map fun p =>
          circulantMulFFT m c ζ (fun g => stored (line.getD g 0))
            (fun g s => l.getD (g * r + s) 0) (p / r) (p % r))
      else PyResult.valueError
    else PyResult.notImplemented

/-- Python `(A @ b)[:n]` applied to the outcome of the inner multiply: slice a
value, propagate an exceptional outcome. -/
def takeOk {F : Type} (n : ℕ) : PyResult F → PyResult F
  | PyResult.ok y => PyResult.ok (y.take n)
  | PyResult.notImplemented => PyResult.notImplemented
  | PyResult.valueError => PyResult.valueError

/-- `BlockSymmetricToeplitzMatrix.__matmul__` for a view with `n` stored blocks
of shape `(r, c)`: build the even circulant embedding over the same stored
blocks, zero-pad the vector on the right to the embedding's width
(`np.zeros(A.shape[1] - self.shape[1])` raises `ValueError` when that
difference is negative, which happens for `n = 1`), run the circulant multiply
and keep the first `n*r` entries. -/
def toeplitzMatmul {F : Type} [Field F] (n r c : ℕ) (ζ : F)
    (stored : ℕ → ℕ → ℕ → F) (op : PyOperand F) : PyResult F :=
  match op with
  | PyOperand.other => PyResult.notImplemented
  | PyOperand.vec l =>
    if l.length = n * c then
      if ((evenNbBlocks n * c : ℤ) - (n * c : ℤ)) < 0 then PyResult.valueError
      else
        takeOk (n * r) (circulantMatmul (evenNbBlocks n) r c ζ (evenBaseline n) stored
          (PyOperand.vec (l ++ List.replicate (evenNbBlocks n * c - n * c) (0 : F))))
    else PyResult.notImplemented

/-- `block.T` for a single block. -/
def blockTranspose {F : Type} (b : ℕ → ℕ → F) : ℕ → ℕ → F := fun s t => b t s

/-- `BlockSymmetricToeplitzMatrix.T`: a new view whose stored row holds the
per-block transpose of each original stored block, in the same order. -/
def toeplitzTransposeStored {F : Type} (stored : ℕ → ℕ → ℕ → F) : ℕ → ℕ → ℕ → F :=
  fun k => blockTranspose (stored k)

/-- A numpy block with an explicit shape, for modelling construction-time checks. -/
structure NpBlock (F : Type) where
  rows : ℕ
  cols : ℕ
  entry : ℕ → ℕ → F

/-- `BlockSymmetricToeplitzMatrix._check_dimension`: all stored blocks must
share the shape of the first one. -/
def checkDimension {F : Type} (blocks : List (NpBlock F)) : Bool :=
  match blocks with
  | [] => true
  | b :: rest => rest.all fun b' => b'.rows = b.rows && b'.cols = b.cols

/-- Outcome of constructing a view. -/
inductive InitResult (α : Type) where
  | ok : α → InitResult α
  | configError : InitResult α

/-- Modelled from the spec: the generic block-storage base class (imported from
`capytaine.matrices.block_matrices`, absent from the sources) stores the given
row of blocks and eagerly checks only that all blocks share one shape; the
even-variant constructor in the source then records the logical block count
`(ns - 1) * 2` and adds no further validation.  The result carries the logical
block count and the baseline grid of the constructed view. -/
def mkEvenCirculant {F : Type} (blocks : List (NpBlock F)) : InitResult (ℕ × List ℕ) :=
  if checkDimension blocks then
    InitResult.ok (evenNbBlocks blocks.length, evenBaseline blocks.length)
  else InitResult.configError

/-- Modelled from the spec: construction of the odd circulant variant, with the
same base-class shape check; the constructor records `ns * 2 - 1` logical blocks. -/
def mkOddCirculant {F : Type} (blocks : List (NpBlock F)) : InitResult (ℕ × List ℕ) :=
  if checkDimension blocks then
    InitResult.ok (oddNbBlocks blocks.length, oddBaseline blocks.length)
  else InitResult.configError

/-- The numpy forward-FFT twiddle factor `exp (-2πi/m)`. -/
noncomputable def numpyTwiddle (m : ℕ) : ℂ :=
  Complex.exp (-(2 * Real.pi * Complex.I / m))

/-! ## Index grid bridges -/

theorem absDiff_comm (i j : ℕ) : absDiff i j = absDiff j i := by
  unfold absDiff; omega

theorem getD_map_range {α : Type} (f : ℕ → α) {n i : ℕ} (h : i < n) (d : α) :
    ((List.range n).map f).getD i d = f i := by
  rw [List.getD_eq_getElem _ _ (by simpa using h)]
  simp

theorem toeplitzGridEntry_eq {n i j : ℕ} (hi : i < n) (hj : j < n) :
    toeplitzGridEntry n i j = absDiff i j := by
  unfold toeplitzGridEntry toeplitzIndexGrid
  rw [getD_map_range _ hi [], getD_map_range _ hj 0]
  unfold absDiff; omega

theorem evenBaseline_length (ns : ℕ) : (evenBaseline ns).length = evenNbBlocks ns := by
  simp [evenBaseline, evenNbBlocks]; omega

theorem oddBaseline_length (ns : ℕ) : (oddBaseline ns).length = oddNbBlocks ns := by
  simp [oddBaseline, oddNbBlocks]; omega

theorem dropLast_range (n : ℕ) : (List.range n).dropLast = List.range (n - 1) := by
  cases n with
  | zero => rfl
  | succ k => rw [List.range_succ, List.dropLast_concat]; simp

theorem drop_one_range (n : ℕ) :
    (List.range n).drop 1 = (List.range (n - 1)).map fun x => x + 1 := by
  cases n with
  | zero => rfl
  | succ k =>
    rw [List.range_succ_eq_map]
    simp only [List.drop_succ_cons, List.drop_zero, Nat.add_sub_cancel]

theorem evenBaseline_eq (ns : ℕ) :
    evenBaseline ns
      = List.range (ns - 1) ++ ((List.range (ns - 1)).reverse.map fun x => x + 1) := by
  unfold evenBaseline
  rw [dropLast_range, drop_one_range, List.map_reverse]

theorem oddBaseline_eq (ns : ℕ) :
    oddBaseline ns
      = List.range ns ++ ((List.range (ns - 1)).reverse.map fun x => x + 1) := by
  unfold oddBaseline
  rw [drop_one_range, List.map_reverse]

theorem evenBaseline_getD {ns g : ℕ} (h2 : 2 ≤ ns) (hg : g < evenNbBlocks ns) :
    (evenBaseline ns).getD g 0 = min g (evenNbBlocks ns - g) := by
  have hM : evenNbBlocks ns = (ns - 1) * 2 := rfl
  rw [evenBaseline_eq]
  rcases lt_or_ge g (ns - 1) with h | h
  · rw [List.getD_append _ _ _ _ (by simpa using h)]
    rw [List.getD_eq_getElem _ _ (by simpa using h), List.getElem_range]
    omega
  · rw [List.getD_append_right _ _ _ _ (by simpa using h)]
    have hlt : g - (List.range (ns - 1)).length
        < (((List.range (ns - 1)).reverse.map fun x => x + 1)).length := by
      simp; omega
    rw [List.getD_eq_getElem _ _ hlt, List.getElem_map, List.getElem_reverse,
      List.getElem_range]
    simp only [List.length_range, List.length_reverse]
    omega

theorem oddBaseline_getD {ns g : ℕ} (h1 : 1 ≤ ns) (hg : g < oddNbBlocks ns) :
    (oddBaseline ns).getD g 0 = min g (oddNbBlocks ns - g) := by
  have hM : oddNbBlocks ns = ns * 2 - 1 := rfl
  rw [oddBaseline_eq]
  rcases lt_or_ge g ns with h | h
  · rw [List.getD_append _ _ _ _ (by simpa using h)]
    rw [List.getD_eq_getElem _ _ (by simpa using h), List.getElem_range]
    omega
  · rw [List.getD_append_right _ _ _ _ (by simpa using h)]
    have hlt : g - (List.range ns).length
        < (((List.range (ns - 1)).reverse.map fun x => x + 1)).length := by
      simp; omega
    rw [List.getD_eq_getElem _ _ hlt, List.getElem_map, List.getElem_reverse,
      List.getElem_range]
    simp only [List.length_range, List.length_reverse]
    omega

theorem wrap_eq {m a b : ℕ} (ha : a < m) (hb : b < m) :
    (a + m - b) % m = if b ≤ a then a - b else a + m - b := by
  rcases le_or_lt b a with h | h
  · rw [if_pos h]
    have h' : a + m - b = (a - b) + m := by omega
    rw [h', Nat.add_mod_right, Nat.mod_eq_of_lt (by omega)]
  · rw [if_neg (by omega)]
    exact Nat.mod_eq_of_lt (by omega)

theorem getD_rotate (l : List ℕ) (n k : ℕ) (hk : k < l.length) :
    (l.rotate n).getD k 0 = l.getD ((k + n) % l.length) 0 := by
  have h1 : k < (l.rotate n).length := by rw [List.length_rotate]; exact hk
  have h2 : (k + n) % l.length < l.length := Nat.mod_lt _ (by omega)
  rw [List.getD_eq_getElem _ _ h1, List.getD_eq_getElem _ _ h2, List.getElem_rotate]

theorem circGridEntry_eq {m : ℕ} {line : List ℕ} (hlen : line.length = m)
    {i j : ℕ} (hi : i < m) (hj : j < m) :
    circGridEntry m line i j = line.getD ((j + m - i) % m) 0 := by
  unfold circGridEntry circulantIndexGrid
  cases i with
  | zero =>
    rw [List.getD_cons_zero]
    have h' : (j + m - 0) % m = j := by
      have h'' : j + m - 0 = j + m := by omega
      rw [h'', Nat.add_mod_right, Nat.mod_eq_of_lt hj]
    rw [h']
  | succ i' =>
    rw [List.getD_cons_succ]
    have hi' : i' < m - 1 := by omega
    rw [getD_map_range _ hi' []]
    unfold rotateRight
    rw [← List.rotate_eq_drop_append_take (by omega : line.length - (i' + 1) ≤ line.length)]
    rw [getD_rotate _ _ _ (by omega)]
    congr 1
    rw [hlen]
    congr 1
    omega

/-! ## Palindromy of the baseline grids and the leading-submatrix law -/

theorem baseline_getD_swap {m : ℕ} {line : List ℕ}
    (hval : ∀ g, g < m → line.getD g 0 = min g (m - g))
    {i j : ℕ} (hi : i < m) (hj : j < m) :
    line.getD ((j + m - i) % m) 0 = line.getD ((i + m - j) % m) 0 := by
  rw [wrap_eq hj hi, wrap_eq hi hj]
  rcases le_or_lt i j with h | h
  · rcases eq_or_lt_of_le h with rfl | h'
    · rw [if_pos le_rfl]
    · rw [if_pos h, if_neg (by omega)]
      rw [hval _ (by omega), hval _ (by omega)]
      omega
  · rw [if_neg (by omega), if_pos (by omega)]
    rw [hval _ (by omega), hval _ (by omega)]
    omega

theorem evenBaseline_absDiff {ns i j : ℕ} (h2 : 2 ≤ ns) (hi : i < ns) (hj : j < ns) :
    (evenBaseline ns).getD ((j + evenNbBlocks ns - i) % evenNbBlocks ns) 0
      = absDiff i j := by
  have hM : evenNbBlocks ns = (ns - 1) * 2 := rfl
  have hiM : i < evenNbBlocks ns := by omega
  have hjM : j < evenNbBlocks ns := by omega
  rw [wrap_eq hjM hiM]
  rcases le_or_lt i j with h | h
  · rw [if_pos h, evenBaseline_getD h2 (by omega)]
    unfold absDiff; omega
  · rw [if_neg (by omega), evenBaseline_getD h2 (by omega)]
    unfold absDiff; omega

theorem wrap_cast {m i j : ℕ} (hi : i < m) (hj : j < m) :
    (((j + m - i) % m : ℕ) : ℤ) = ((j : ℤ) - i) % (m : ℤ) := by
  rw [wrap_eq hj hi]
  rcases le_or_lt i j with h | h
  · rw [if_pos h]
    have h1 : ((j : ℤ) - i) % m = (j : ℤ) - i :=
      Int.emod_eq_of_lt (by omega) (by omega)
    rw [h1]; omega
  · rw [if_neg (by omega)]
    have h2 : ((j : ℤ) - i + m) % m = ((j : ℤ) - i) % m := by
      rw [show ((j : ℤ) - i + m) = ((j : ℤ) - i + m * 1) by ring,
        Int.add_mul_emod_self_left]
    have h3 : ((j : ℤ) - i + m) % m = (j : ℤ) - i + m :=
      Int.emod_eq_of_lt (by omega) (by omega)
    rw [← h2, h3]; omega

/-- For `i, m, g < M`, the integer `g + m - i` is a multiple of `M` exactly
when `g` is the cyclic difference `(i - m) mod M`. -/
theorem dvd_iff_wrap {m i mm g : ℕ} (hm : 0 < m) (hi : i < m) (hmm : mm < m)
    (hg : g < m) :
    ((m : ℤ) ∣ ((g : ℤ) + mm - i)) ↔ g = (i + m - mm) % m := by
  rw [wrap_eq hi hmm]
  constructor
  · rintro ⟨t, ht⟩
    have hMZ : (0 : ℤ) < (m : ℤ) := by exact_mod_cast hm
    have hb1 : (m : ℤ) * (-1) < (m : ℤ) * t := by
      rw [← ht]; omega
    have hb2 : (m : ℤ) * t < (m : ℤ) * 2 := by
      rw [← ht]; omega
    have ht1 : t < 2 := by
      have := (mul_lt_mul_left hMZ).mp hb2; omega
    have ht0 : -1 < t := by
      have := (mul_lt_mul_left hMZ).mp hb1; omega
    have : t = 0 ∨ t = 1 := by omega
    rcases this with rfl | rfl
    · simp only [mul_zero] at ht
      rcases le_or_lt mm i with h | h
      · rw [if_pos h]; omega
      · exfalso; omega
    · simp only [mul_one] at ht
      rcases le_or_lt mm i with h | h
      · exfalso; omega
      · rw [if_neg (by omega)]; omega
  · intro hEq
    rcases le_or_lt mm i with h | h
    · rw [if_pos h] at hEq
      exact ⟨0, by omega⟩
    · rw [if_neg (by omega)] at hEq
      exact ⟨1, by omega⟩

/-! ## Geometric sums of roots of unity -/

theorem rootSum {F : Type} [Field F] {m : ℕ} {ζ : F}
    (hζ : IsPrimitiveRoot ζ m) (d : ℤ) :
    ∑ k ∈ Finset.range m, ζ ^ (d * (k : ℤ)) = if (m : ℤ) ∣ d then (m : F) else 0 := by
  have key : ∀ k : ℕ, ζ ^ (d * (k : ℤ)) = (ζ ^ d) ^ k := by
    intro k; rw [zpow_mul, zpow_natCast]
  by_cases hd : (m : ℤ) ∣ d
  · rw [if_pos hd]
    have h1 : ζ ^ d = 1 := (hζ.zpow_eq_one_iff_dvd d).mpr hd
    simp [key, h1]
  · rw [if_neg hd]
    have hx1 : ζ ^ d ≠ 1 := fun h => hd ((hζ.zpow_eq_one_iff_dvd d).mp h)
    have hxM : (ζ ^ d) ^ m = 1 := by
      rw [← zpow_natCast (ζ ^ d) m, ← zpow_mul, mul_comm, zpow_mul, zpow_natCast,
        hζ.pow_eq_one, one_zpow]
    have hgeom := geom_sum_mul (ζ ^ d) m
    rw [hxM, sub_self] at hgeom
    rcases mul_eq_zero.mp hgeom with h | h
    · simp only [key]; exact h
    · exact absurd (sub_eq_zero.mp h) hx1

/-! ## The Fourier-domain multiply is cyclic convolution -/

/-- For a primitive `m`-th root of unity `ζ`, the Fourier-domain algorithm of
`AbstractBlockSymmetricCirculantMatrix.__matmul__` computes the block cyclic
convolution `y i = ∑ mm, A[(i - mm) mod m] ⬝ b[mm]`. -/
theorem circulantMulFFT_eq_conv {F : Type} [Field F] {m c : ℕ} {ζ : F}
    (hζ : IsPrimitiveRoot ζ m) (hm : 0 < m) (hmF : (m : F) ≠ 0)
    (A : ℕ → ℕ → ℕ → F) (b : ℕ → ℕ → F) {i : ℕ} (hi : i < m) (t : ℕ) :
    circulantMulFFT m c ζ A b i t
      = ∑ mm ∈ Finset.range m, ∑ s ∈ Finset.range c,
          A ((i + m - mm) % m) t s * b mm s := by
  have hζ0 : ζ ≠ 0 := hζ.ne_zero (by omega)
  unfold circulantMulFFT fftBlockStack fftVector
  have step1 : ∀ k : ℕ,
      (ζ⁻¹) ^ (i * k) * ∑ s ∈ Finset.range c,
          (∑ g ∈ Finset.range m, ζ ^ (g * k) * A g t s)
            * (∑ mm ∈ Finset.range m, ζ ^ (mm * k) * b mm s)
        = ∑ s ∈ Finset.range c, ∑ g ∈ Finset.range m, ∑ mm ∈ Finset.range m,
            ζ ^ (((g : ℤ) + mm - i) * k) * (A g t s * b mm s) := by
    intro k
    rw [Finset.mul_sum]
    refine Finset.sum_congr rfl fun s _ => ?_
    rw [Finset.sum_mul_sum, Finset.mul_sum]
    refine Finset.sum_congr rfl fun g _ => ?_
    rw [Finset.mul_sum]
    refine Finset.sum_congr rfl fun mm _ => ?_
    have tw : (ζ⁻¹) ^ (i * k) * (ζ ^ (g * k) * ζ ^ (mm * k))
        = ζ ^ (((g : ℤ) + mm - i) * k) := by
      have e1 : (ζ⁻¹) ^ (i * k) = ζ ^ (-((i * k : ℕ) : ℤ)) := by
        rw [zpow_neg, zpow_natCast, inv_pow]
      have e2 : ζ ^ (g * k) = ζ ^ (((g * k : ℕ)) : ℤ) := (zpow_natCast _ _).symm
      have e3 : ζ ^ (mm * k) = ζ ^ (((mm * k : ℕ)) : ℤ) := (zpow_natCast _ _).symm
      rw [e1, e2, e3, ← zpow_add₀ hζ0, ← zpow_add₀ hζ0]
      congr 1
      push_cast
      ring
    calc (ζ⁻¹) ^ (i * k) * ((ζ ^ (g * k) * A g t s) * (ζ ^ (mm * k) * b mm s))
        = (ζ⁻¹) ^ (i * k) * (ζ ^ (g * k) * ζ ^ (mm * k)) * (A g t s * b mm s) := by
          ring
      _ = ζ ^ (((g : ℤ) + mm - i) * k) * (A g t s * b mm s) := by rw [tw]
  rw [Finset.sum_congr rfl fun k _ => step1 k]
  have step2 : ∑ k ∈ Finset.range m, ∑ s ∈ Finset.range c, ∑ g ∈ Finset.range m,
        ∑ mm ∈ Finset.range m, ζ ^ (((g : ℤ) + mm - i) * k) * (A g t s * b mm s)
      = (m : F) * ∑ mm ∈ Finset.range m, ∑ s ∈ Finset.range c,
          A ((i + m - mm) % m) t s * b mm s := by
    calc ∑ k ∈ Finset.range m, ∑ s ∈ Finset.range c, ∑ g ∈ Finset.range m,
          ∑ mm ∈ Finset.range m, ζ ^ (((g : ℤ) + mm - i) * k) * (A g t s * b mm s)
        = ∑ s ∈ Finset.range c, ∑ k ∈ Finset.range m, ∑ g ∈ Finset.range m,
            ∑ mm ∈ Finset.range m, ζ ^ (((g : ℤ) + mm - i) * k) * (A g t s * b mm s) :=
          Finset.sum_comm
      _ = ∑ s ∈ Finset.range c, ∑ g ∈ Finset.range m, ∑ mm ∈ Finset.range m,
            ∑ k ∈ Finset.range m, ζ ^ (((g : ℤ) + mm - i) * k) * (A g t s * b mm s) := by
          refine Finset.sum_congr rfl fun s _ => ?_
          calc ∑ k ∈ Finset.range m, ∑ g ∈ Finset.range m,
                ∑ mm ∈ Finset.range m, ζ ^ (((g : ℤ) + mm - i) * k) * (A g t s * b mm s)
              = ∑ g ∈ Finset.range m, ∑ k ∈ Finset.range m,
                  ∑ mm ∈ Finset.range m, ζ ^ (((g : ℤ) + mm - i) * k) * (A g t s * b mm s) :=
                Finset.sum_comm
            _ = ∑ g ∈ Finset.range m, ∑ mm ∈ Finset.range m,
                  ∑ k ∈ Finset.range m, ζ ^ (((g : ℤ) + mm - i) * k) * (A g t s * b mm s) :=
                Finset.sum_congr rfl fun g _ => Finset.sum_comm
      _ = ∑ s ∈ Finset.range c, ∑ mm ∈ Finset.range m, ∑ g ∈ Finset.range m,
            ∑ k ∈ Finset.range m, ζ ^ (((g : ℤ) + mm - i) * k) * (A g t s * b mm s) :=
          Finset.sum_congr rfl fun s _ => Finset.sum_comm
      _ = ∑ s ∈ Finset.range c, ∑ mm ∈ Finset.range m, ∑ g ∈ Finset.range m,
            (if (m : ℤ) ∣ ((g : ℤ) + mm - i) then (m : F) else 0) * (A g t s * b mm s) := by
          refine Finset.sum_congr rfl fun s _ => Finset.sum_congr rfl fun mm _ =>
            Finset.sum_congr rfl fun g _ => ?_
          rw [← Finset.sum_mul, rootSum hζ ((g : ℤ) + mm - i)]
      _ = ∑ s ∈ Finset.range c, ∑ mm ∈ Finset.range m,
            (m : F) * (A ((i + m - mm) % m) t s * b mm s) := by
          refine Finset.sum_congr rfl fun s _ => Finset.sum_congr rfl fun mm hmem => ?_
          have hmm' : mm < m := Finset.mem_range.mp hmem
          have hg0 : (i + m - mm) % m < m := Nat.mod_lt _ hm
          have hsingle : ∑ g ∈ Finset.range m,
              (if (m : ℤ) ∣ ((g : ℤ) + mm - i) then (m : F) else 0) * (A g t s * b mm s)
              = (if (m : ℤ) ∣ ((((i + m - mm) % m : ℕ) : ℤ) + mm - i) then (m : F) else 0)
                  * (A ((i + m - mm) % m) t s * b mm s) :=
            Finset.sum_eq_single_of_mem _ (Finset.mem_range.mpr hg0) fun g hgmem hne => by
              rw [if_neg fun hd =>
                hne ((dvd_iff_wrap hm hi hmm' (Finset.mem_range.mp hgmem)).mp hd), zero_mul]
          rw [hsingle, if_pos ((dvd_iff_wrap hm hi hmm' hg0).mpr rfl)]
      _ = (m : F) * ∑ mm ∈ Finset.range m, ∑ s ∈ Finset.range c,
            A ((i + m - mm) % m) t s * b mm s := by
          calc ∑ s ∈ Finset.range c, ∑ mm ∈ Finset.range m,
                (m : F) * (A ((i + m - mm) % m) t s * b mm s)
              = ∑ s ∈ Finset.range c, (m : F) * ∑ mm ∈ Finset.range m,
                  A ((i + m - mm) % m) t s * b mm s :=
                Finset.sum_congr rfl fun s _ => (Finset.mul_sum _ _ _).symm
            _ = (m : F) * ∑ s ∈ Finset.range c, ∑ mm ∈ Finset.range m,
                  A ((i + m - mm) % m) t s * b mm s := (Finset.mul_sum _ _ _).symm
            _ = (m : F) * ∑ mm ∈ Finset.range m, ∑ s ∈ Finset.range c,
                  A ((i + m - mm) % m) t s * b mm s := congrArg _ Finset.sum_comm
  rw [step2, ← mul_assoc, inv_mul_cancel₀ hmF, one_mul]

/-! ## Flat vectors versus block vectors -/

theorem sum_range_mul_block {F : Type} [AddCommMonoid F] (m c : ℕ) (f : ℕ → F) :
    ∑ q ∈ Finset.range (m * c), f q
      = ∑ j ∈ Finset.range m, ∑ s ∈ Finset.range c, f (j * c + s) := by
  induction m with
  | zero => simp
  | succ n ih =>
    rw [Nat.succ_mul, Finset.sum_range_add, ih, Finset.sum_range_succ]

theorem block_div_eq {j s c : ℕ} (hs : s < c) : (j * c + s) / c = j := by
  rw [mul_comm j c, Nat.mul_add_div (by omega)]
  simp [Nat.div_eq_of_lt hs]

theorem block_mod_eq {j s c : ℕ} (hs : s < c) : (j * c + s) % c = s := by
  rw [mul_comm j c, Nat.mul_add_mod]
  exact Nat.mod_eq_of_lt hs

theorem div_lt_of_lt_mul {p n r : ℕ} (hp : p < n * r) : p / r < n := by
  have hr : 0 < r := by
    rcases Nat.eq_zero_or_pos r with h | h
    · subst h; simp at hp
    · exact h
  exact (Nat.div_lt_iff_lt_mul hr).mpr hp

theorem getD_append_replicate {F : Type} (l : List F) (k q : ℕ) (z : F) :
    (l ++ List.replicate k z).getD q z = if q < l.length then l.getD q z else z := by
  rcases lt_or_ge q l.length with h | h
  · rw [if_pos h, List.getD_append _ _ _ _ h]
  · rw [if_neg (by omega), List.getD_append_right _ _ _ _ h]
    rcases lt_or_ge (q - l.length) k with h2 | h2
    · rw [List.getD_eq_getElem _ _ (by simpa using h2), List.getElem_replicate]
    · rw [List.getD_eq_default _ _ (by simpa using h2)]

/-! ## The circulant multiply agrees with the dense reference product -/

theorem numpyTwiddle_isPrimitiveRoot {m : ℕ} (hm : 0 < m) :
    IsPrimitiveRoot (numpyTwiddle m) m := by
  unfold numpyTwiddle
  rw [Complex.exp_neg]
  exact IsPrimitiveRoot.inv_iff.mpr (Complex.isPrimitiveRoot_exp m (by omega))

/-- Shared correctness of the Fourier-domain multiply for any circulant view
with square blocks and a palindromic baseline grid: the `__matmul__` result is
the dense product materialized from `index_grid`. -/
theorem circulantMatmul_ok {m c : ℕ} (hm : 0 < m) {line : List ℕ}
    (hlen : line.length = m)
    (hpal : ∀ i j, i < m → j < m →
      line.getD ((j + m - i) % m) 0 = line.getD ((i + m - j) % m) 0)
    (stored : ℕ → ℕ → ℕ → ℂ) (l : List ℂ) (hl : l.length = m * c) :
    circulantMatmul m c c (numpyTwiddle m) line stored (PyOperand.vec l)
      = PyResult.ok ((List.range (m * c)).map
          (circulantDenseMulVec m c c line stored fun q => l.getD q 0)) := by
  have hζ := numpyTwiddle_isPrimitiveRoot hm
  have hmF : ((m : ℕ) : ℂ) ≠ 0 := Nat.cast_ne_zero.mpr (by omega)
  simp only [circulantMatmul]
  rw [if_pos hl]
  simp only [if_true]
  congr 1
  refine List.map_congr_left fun p hp => ?_
  have hpmc : p < m * c := by simpa using hp
  have hi : p / c < m := div_lt_of_lt_mul hpmc
  rw [circulantMulFFT_eq_conv hζ hm hmF _ _ hi (p % c)]
  unfold circulantDenseMulVec
  rw [sum_range_mul_block]
  refine Finset.sum_congr rfl fun mm hmem => Finset.sum_congr rfl fun s hsmem => ?_
  have hmm : mm < m := Finset.mem_range.mp hmem
  have hs : s < c := Finset.mem_range.mp hsmem
  unfold circulantDenseEntry
  rw [block_div_eq hs, block_mod_eq hs, circGridEntry_eq hlen hi hmm,
    hpal (p / c) mm hi hmm]

/-! ## The Toeplitz multiply through the even circulant embedding -/

/-- For `ns ≥ 2` stored square blocks, the Toeplitz `__matmul__` (even-circulant
embedding, zero padding, Fourier multiply, truncation to the first `ns·c`
entries) returns exactly the dense product materialized from `all_blocks`. -/
theorem toeplitzMatmul_ok {ns c : ℕ} (h2 : 2 ≤ ns) (stored : ℕ → ℕ → ℕ → ℂ)
    (l : List ℂ) (hl : l.length = ns * c) :
    toeplitzMatmul ns c c (numpyTwiddle (evenNbBlocks ns)) stored (PyOperand.vec l)
      = PyResult.ok ((List.range (ns * c)).map
          (toeplitzDenseMulVec ns c c stored fun q => l.getD q 0)) := by
  have hnsM : ns ≤ evenNbBlocks ns := by unfold evenNbBlocks; omega
  have hm : 0 < evenNbBlocks ns := by unfold evenNbBlocks; omega
  have hmul : ns * c ≤ evenNbBlocks ns * c := Nat.mul_le_mul_right c hnsM
  have hmulZ : ((ns * c : ℕ) : ℤ) ≤ ((evenNbBlocks ns * c : ℕ) : ℤ) := by
    exact_mod_cast hmul
  simp only [toeplitzMatmul]
  rw [if_pos hl, if_neg (by push_cast at hmulZ ⊢; omega)]
  have hlenpad :
      (l ++ List.replicate (evenNbBlocks ns * c - ns * c) (0 : ℂ)).length
        = evenNbBlocks ns * c := by
    simp [hl]; omega
  rw [circulantMatmul_ok hm (evenBaseline_length ns)
    (fun i j hi hj => baseline_getD_swap (fun g hg => evenBaseline_getD h2 hg) hi hj)
    stored _ hlenpad]
  simp only [takeOk]
  congr 1
  rw [← List.map_take, List.take_range, min_eq_left hmul]
  refine List.map_congr_left fun p hp => ?_
  have hpc : p < ns * c := by simpa using hp
  have hplt : p < evenNbBlocks ns * c := lt_of_lt_of_le hpc hmul
  have hic : p / c < ns := div_lt_of_lt_mul hpc
  have hiM : p / c < evenNbBlocks ns := by omega
  unfold circulantDenseMulVec toeplitzDenseMulVec
  rw [sum_range_mul_block (evenNbBlocks ns) c, sum_range_mul_block ns c]
  have hvanish : ∀ x ∈ Finset.range (evenNbBlocks ns), x ∉ Finset.range ns →
      (∑ s ∈ Finset.range c,
        circulantDenseEntry (evenNbBlocks ns) c c (evenBaseline ns) stored p (x * c + s)
          * (fun q => (l ++ List.replicate (evenNbBlocks ns * c - ns * c) (0 : ℂ)).getD q 0)
              (x * c + s)) = 0 := by
    intro x _ hnx
    have hxns : ns ≤ x := by simp only [Finset.mem_range] at hnx; omega
    refine Finset.sum_eq_zero fun s _ => ?_
    have hz : (l ++ List.replicate (evenNbBlocks ns * c - ns * c) (0 : ℂ)).getD
        (x * c + s) 0 = 0 := by
      rw [getD_append_replicate, if_neg]
      have := Nat.mul_le_mul_right c hxns
      omega
    simp only [hz, mul_zero]
  rw [← Finset.sum_subset (Finset.range_subset.mpr hnsM) hvanish]
  refine Finset.sum_congr rfl fun mm hmem => Finset.sum_congr rfl fun s hsmem => ?_
  have hmmns : mm < ns := Finset.mem_range.mp hmem
  have hmmM : mm < evenNbBlocks ns := by omega
  have hs : s < c := Finset.mem_range.mp hsmem
  have hv : (l ++ List.replicate (evenNbBlocks ns * c - ns * c) (0 : ℂ)).getD
      (mm * c + s) 0 = l.getD (mm * c + s) 0 := by
    rw [getD_append_replicate, if_pos]
    have hstep : mm * c + c ≤ ns * c := by
      have := Nat.mul_le_mul_right c (show mm + 1 ≤ ns by omega)
      rwa [Nat.succ_mul] at this
    simp only [hl]
    omega
  unfold circulantDenseEntry toeplitzDenseEntry
  rw [block_div_eq hs, block_mod_eq hs,
    circGridEntry_eq (evenBaseline_length ns) hiM hmmM,
    evenBaseline_absDiff h2 hic hmmns,
    toeplitzGridEntry_eq hic hmmns]
  simp only [hv]

/-! ## Claims -/

/-- C1 (amended to square blocks, which is what the source's reshape to
`AAt.shape[:2] + (1,) = (M, r, 1)` requires): for every symmetric block
Toeplitz view with `ns ≥ 2` stored blocks of shape `(c, c)` and every vector
of length `ns·c`, the multiply algorithm — even-circulant embedding over the
same stored row, right zero-padding to the embedding's width, Fourier-domain
circulant multiply with twiddle `exp (-2πi/M)`, truncation to the first `ns·c`
entries — returns exactly the dense Toeplitz-vector product materialized from
`all_blocks`. -/
theorem c1_embedding_square (ns c : ℕ) (stored : ℕ → ℕ → ℕ → ℂ) (l : List ℂ)
    (h2 : 2 ≤ ns) (hl : l.length = ns * c) :
    toeplitzMatmul ns c c (numpyTwiddle (evenNbBlocks ns)) stored (PyOperand.vec l)
      = PyResult.ok ((List.range (ns * c)).map
          (toeplitzDenseMulVec ns c c stored fun q => l.getD q 0)) :=
  toeplitzMatmul_ok h2 stored l hl

theorem c1_embedding_square_witness :
    (2 ≤ 2 ∧ ([(1 : ℂ), 2]).length = 2 * 1) ∧
    toeplitzMatmul 2 1 1 (numpyTwiddle (evenNbBlocks 2)) (fun _ _ _ => (1 : ℂ))
        (PyOperand.vec [1, 2])
      = PyResult.ok ((List.range (2 * 1)).map
          (toeplitzDenseMulVec 2 1 1 (fun _ _ _ => (1 : ℂ)) fun q =>
            ([(1 : ℂ), 2]).getD q 0)) :=
  ⟨⟨by omega, rfl⟩,
    c1_embedding_square 2 1 (fun _ _ _ => (1 : ℂ)) [1, 2] (by omega) rfl⟩

/-- C1 counterexample: with rectangular `1×2` blocks (`ns = 2`, vector length
`ns·c = 4`) the multiply raises `ValueError` — the inner reshape of the padded
length-4 vector to `(M, r, 1) = (2, 1, 1)` is impossible — instead of
returning the dense Toeplitz-vector product. -/
theorem c1_counterexample :
    toeplitzMatmul 2 1 2 (numpyTwiddle (evenNbBlocks 2)) (fun _ _ _ => (1 : ℂ))
        (PyOperand.vec [1, 0, 0, 0]) = PyResult.valueError
    ∧ toeplitzMatmul 2 1 2 (numpyTwiddle (evenNbBlocks 2)) (fun _ _ _ => (1 : ℂ))
        (PyOperand.vec [1, 0, 0, 0])
      ≠ PyResult.ok ((List.range (2 * 1)).map
          (toeplitzDenseMulVec 2 1 2 (fun _ _ _ => (1 : ℂ)) fun q =>
            ([(1 : ℂ), 0, 0, 0]).getD q 0)) :=
  ⟨rfl, fun h => nomatch h⟩

/-- C2 (amended to square blocks, which is what the source's reshape to
`(M, r, 1)` requires): for both circulant variants, the Fourier-domain
multiply with the numpy twiddle `exp (-2πi/M)` equals the product of the fully
materialized `M×M` dense block matrix (built from `index_grid`) with the
vector. -/
theorem c2_fft_equiv_square :
    (∀ (ns c : ℕ) (stored : ℕ → ℕ → ℕ → ℂ) (l : List ℂ), 2 ≤ ns →
      l.length = evenNbBlocks ns * c →
      circulantMatmul (evenNbBlocks ns) c c (numpyTwiddle (evenNbBlocks ns))
          (evenBaseline ns) stored (PyOperand.vec l)
        = PyResult.ok ((List.range (evenNbBlocks ns * c)).map
            (circulantDenseMulVec (evenNbBlocks ns) c c (evenBaseline ns) stored
              fun q => l.getD q 0)))
    ∧ (∀ (ns c : ℕ) (stored : ℕ → ℕ → ℕ → ℂ) (l : List ℂ), 1 ≤ ns →
      l.length = oddNbBlocks ns * c →
      circulantMatmul (oddNbBlocks ns) c c (numpyTwiddle (oddNbBlocks ns))
          (oddBaseline ns) stored (PyOperand.vec l)
        = PyResult.ok ((List.range (oddNbBlocks ns * c)).map
            (circulantDenseMulVec (oddNbBlocks ns) c c (oddBaseline ns) stored
              fun q => l.getD q 0))) := by
  constructor
  · intro ns c stored l h2 hl
    exact circulantMatmul_ok (by unfold evenNbBlocks; omega) (evenBaseline_length ns)
      (fun i j hi hj => baseline_getD_swap (fun g hg => evenBaseline_getD h2 hg) hi hj)
      stored l hl
  · intro ns c stored l h1 hl
    exact circulantMatmul_ok (by unfold oddNbBlocks; omega) (oddBaseline_length ns)
      (fun i j hi hj => baseline_getD_swap (fun g hg => oddBaseline_getD h1 hg) hi hj)
      stored l hl

theorem c2_fft_equiv_square_witness :
    (2 ≤ 2 ∧ ([(0 : ℂ), 0]).length = evenNbBlocks 2 * 1
      ∧ 1 ≤ 1 ∧ ([(0 : ℂ)]).length = oddNbBlocks 1 * 1) ∧
    circulantMatmul (evenNbBlocks 2) 1 1 (numpyTwiddle (evenNbBlocks 2))
        (evenBaseline 2) (fun _ _ _ => (0 : ℂ)) (PyOperand.vec [0, 0])
      = PyResult.ok ((List.range (evenNbBlocks 2 * 1)).map
          (circulantDenseMulVec (evenNbBlocks 2) 1 1 (evenBaseline 2)
            (fun _ _ _ => (0 : ℂ)) fun q => ([(0 : ℂ), 0]).getD q 0))
    ∧ circulantMatmul (oddNbBlocks 1) 1 1 (numpyTwiddle (oddNbBlocks 1))
        (oddBaseline 1) (fun _ _ _ => (0 : ℂ)) (PyOperand.vec [0])
      = PyResult.ok ((List.range (oddNbBlocks 1 * 1)).map
          (circulantDenseMulVec (oddNbBlocks 1) 1 1 (oddBaseline 1)
            (fun _ _ _ => (0 : ℂ)) fun q => ([(0 : ℂ)]).getD q 0)) :=
  ⟨⟨by omega, rfl, by omega, rfl⟩,
    c2_fft_equiv_square.1 2 1 (fun _ _ _ => (0 : ℂ)) [0, 0] (by omega) rfl,
    c2_fft_equiv_square.2 1 1 (fun _ _ _ => (0 : ℂ)) [0] (by omega) rfl⟩

/-- C2 counterexample: for an even circulant view with rectangular `1×2`
blocks (`M = 2`, vector length `M·c = 4`), the Fourier-domain multiply raises
`ValueError` at the reshape to `(M, r, 1) = (2, 1, 1)` instead of returning
the dense product. -/
theorem c2_counterexample :
    circulantMatmul 2 1 2 (numpyTwiddle 2) (evenBaseline 2) (fun _ _ _ => (1 : ℂ))
        (PyOperand.vec [1, 0, 0, 0]) = PyResult.valueError
    ∧ circulantMatmul 2 1 2 (numpyTwiddle 2) (evenBaseline 2) (fun _ _ _ => (1 : ℂ))
        (PyOperand.vec [1, 0, 0, 0])
      ≠ PyResult.ok ((List.range (2 * 1)).map
          (circulantDenseMulVec 2 1 2 (evenBaseline 2) (fun _ _ _ => (1 : ℂ))
            fun q => ([(1 : ℂ), 0, 0, 0]).getD q 0)) :=
  ⟨rfl, fun h => nomatch h⟩

/-- C3: for a stored row of length `ns ≥ 1`, the even variant has
`M = 2(ns-1)` logical blocks with baseline grid `[0, …, ns-2] ++ [ns-1, …, 1]`,
and the odd variant has `M = 2·ns - 1` logical blocks with baseline grid
`[0, …, ns-1] ++ [ns-1, …, 1]`; both baseline grids have length `M`. -/
theorem c3_variant_formulas (ns : ℕ) (h1 : 1 ≤ ns) :
    (evenNbBlocks ns = 2 * (ns - 1)
      ∧ evenBaseline ns
          = List.range (ns - 1) ++ ((List.range (ns - 1)).reverse.map fun x => x + 1)
      ∧ (evenBaseline ns).length = evenNbBlocks ns)
    ∧ (oddNbBlocks ns = 2 * ns - 1
      ∧ oddBaseline ns
          = List.range ns ++ ((List.range (ns - 1)).reverse.map fun x => x + 1)
      ∧ (oddBaseline ns).length = oddNbBlocks ns) :=
  ⟨⟨by unfold evenNbBlocks; omega, evenBaseline_eq ns, evenBaseline_length ns⟩,
    ⟨by unfold oddNbBlocks; omega, oddBaseline_eq ns, oddBaseline_length ns⟩⟩

theorem c3_variant_formulas_witness :
    (1 ≤ 4) ∧ evenNbBlocks 4 = 2 * (4 - 1) ∧ oddNbBlocks 4 = 2 * 4 - 1 :=
  ⟨by omega, (c3_variant_formulas 4 (by omega)).1.1, (c3_variant_formulas 4 (by omega)).2.1⟩

/-- C4: the Toeplitz index grid is an `n×n` matrix whose `(i, j)` entry is
`|i - j|`; it is a pure function of `n` alone (its definition takes only `n`). -/
theorem c4_toeplitz_grid_law (n : ℕ) :
    (toeplitzIndexGrid n).length = n
    ∧ (∀ row ∈ toeplitzIndexGrid n, row.length = n)
    ∧ ∀ i j : ℕ, i < n → j < n → toeplitzGridEntry n i j = absDiff i j := by
  refine ⟨by simp [toeplitzIndexGrid], fun row hrow => ?_,
    fun i j hi hj => toeplitzGridEntry_eq hi hj⟩
  unfold toeplitzIndexGrid at hrow
  rcases List.mem_map.mp hrow with ⟨j, hj, rfl⟩
  simp

theorem c4_toeplitz_grid_law_witness :
    (0 < 3 ∧ 1 < 3) ∧ toeplitzGridEntry 3 0 1 = absDiff 0 1 :=
  ⟨⟨by omega, by omega⟩, (c4_toeplitz_grid_law 3).2.2 0 1 (by omega) (by omega)⟩

/-- C5: every Toeplitz and circulant index grid is symmetric, and for both
circulant variants the entry at `(i, j)` depends only on `(j - i) mod M`. -/
theorem c5_grid_symmetry :
    (∀ n i j : ℕ, i < n → j < n → toeplitzGridEntry n i j = toeplitzGridEntry n j i)
    ∧ (∀ ns i j : ℕ, 2 ≤ ns → i < evenNbBlocks ns → j < evenNbBlocks ns →
        circGridEntry (evenNbBlocks ns) (evenBaseline ns) i j
          = circGridEntry (evenNbBlocks ns) (evenBaseline ns) j i)
    ∧ (∀ ns i j : ℕ, 1 ≤ ns → i < oddNbBlocks ns → j < oddNbBlocks ns →
        circGridEntry (oddNbBlocks ns) (oddBaseline ns) i j
          = circGridEntry (oddNbBlocks ns) (oddBaseline ns) j i)
    ∧ (∀ ns i j i' j' : ℕ, 2 ≤ ns → i < evenNbBlocks ns → j < evenNbBlocks ns →
        i' < evenNbBlocks ns → j' < evenNbBlocks ns →
        ((j : ℤ) - i) % (evenNbBlocks ns : ℤ) = ((j' : ℤ) - i') % (evenNbBlocks ns : ℤ) →
        circGridEntry (evenNbBlocks ns) (evenBaseline ns) i j
          = circGridEntry (evenNbBlocks ns) (evenBaseline ns) i' j')
    ∧ (∀ ns i j i' j' : ℕ, 1 ≤ ns → i < oddNbBlocks ns → j < oddNbBlocks ns →
        i' < oddNbBlocks ns → j' < oddNbBlocks ns →
        ((j : ℤ) - i) % (oddNbBlocks ns : ℤ) = ((j' : ℤ) - i') % (oddNbBlocks ns : ℤ) →
        circGridEntry (oddNbBlocks ns) (oddBaseline ns) i j
          = circGridEntry (oddNbBlocks ns) (oddBaseline ns) i' j') := by
  refine ⟨fun n i j hi hj => ?_, fun ns i j h2 hi hj => ?_, fun ns i j h1 hi hj => ?_,
    fun ns i j i' j' h2 hi hj hi' hj' hmod => ?_,
    fun ns i j i' j' h1 hi hj hi' hj' hmod => ?_⟩
  · rw [toeplitzGridEntry_eq hi hj, toeplitzGridEntry_eq hj hi, absDiff_comm]
  · rw [circGridEntry_eq (evenBaseline_length ns) hi hj,
      circGridEntry_eq (evenBaseline_length ns) hj hi]
    exact baseline_getD_swap (fun g hg => evenBaseline_getD h2 hg) hi hj
  · rw [circGridEntry_eq (oddBaseline_length ns) hi hj,
      circGridEntry_eq (oddBaseline_length ns) hj hi]
    exact baseline_getD_swap (fun g hg => oddBaseline_getD h1 hg) hi hj
  · have h1c := wrap_cast hi hj
    have h2c := wrap_cast hi' hj'
    have hidx : (j + evenNbBlocks ns - i) % evenNbBlocks ns
        = (j' + evenNbBlocks ns - i') % evenNbBlocks ns := by omega
    rw [circGridEntry_eq (evenBaseline_length ns) hi hj,
      circGridEntry_eq (evenBaseline_length ns) hi' hj', hidx]
  · have h1c := wrap_cast hi hj
    have h2c := wrap_cast hi' hj'
    have hidx : (j + oddNbBlocks ns - i) % oddNbBlocks ns
        = (j' + oddNbBlocks ns - i') % oddNbBlocks ns := by omega
    rw [circGridEntry_eq (oddBaseline_length ns) hi hj,
      circGridEntry_eq (oddBaseline_length ns) hi' hj', hidx]

theorem c5_grid_symmetry_witness :
    (0 < 3 ∧ 2 < 3) ∧ toeplitzGridEntry 3 0 2 = toeplitzGridEntry 3 2 0 :=
  ⟨⟨by omega, by omega⟩, c5_grid_symmetry.1 3 0 2 (by omega) (by omega)⟩

/-- C6: the source does not handle the degenerate single-stored-block case of
the Toeplitz multiply: for `n = 1` the even embedding has `M = 0` blocks and
`np.zeros(A.shape[1] - self.shape[1]) = np.zeros(-c)` raises `ValueError`
instead of returning the product of the single stored block with the vector
(here `[2]·[3] = [6]`). -/
theorem c6_single_block_multiply_raises :
    toeplitzMatmul 1 1 1 (numpyTwiddle (evenNbBlocks 1)) (fun _ _ _ => (2 : ℂ))
        (PyOperand.vec [3]) = PyResult.valueError
    ∧ toeplitzMatmul 1 1 1 (numpyTwiddle (evenNbBlocks 1)) (fun _ _ _ => (2 : ℂ))
        (PyOperand.vec [3]) ≠ PyResult.ok [6] :=
  ⟨rfl, fun h => nomatch h⟩

/-- C7 (amended): constructing the even circulant variant from a single stored
block does not fail — no length validation exists — and yields the degenerate
view with `M = 0` logical blocks and an empty baseline grid, while the odd
variant with one stored block yields the valid trivial view with `M = 1`. -/
theorem c7_construction_single_block {F : Type} (b : NpBlock F) :
    mkEvenCirculant [b] = InitResult.ok (0, [])
    ∧ mkOddCirculant [b] = InitResult.ok (1, [0]) :=
  ⟨rfl, rfl⟩

/-- C7 counterexample: the even-variant construction from a stored row of
length 1 succeeds (returning the degenerate `M = 0` view) rather than failing
eagerly with a configuration error. -/
theorem c7_counterexample :
    mkEvenCirculant (F := ℚ) [⟨1, 1, fun _ _ => 1⟩] = InitResult.ok (0, [])
    ∧ mkEvenCirculant (F := ℚ) [⟨1, 1, fun _ _ => 1⟩] ≠ InitResult.configError :=
  ⟨rfl, fun h => nomatch h⟩

/-- C8 (amended): both failure modes of `__matmul__` — a numeric vector whose
length does not match the matrix's column count, and a non-vector operand —
are signalled identically by returning `NotImplemented` (deferring to Python's
binary-operator fallback); no distinct shape-mismatch error is raised, so the
two are not distinguishable by the caller at this layer. -/
theorem c8_notimplemented {F : Type} [Field F] (n r c m : ℕ) (ζ : F)
    (line : List ℕ) (stored : ℕ → ℕ → ℕ → F) (l : List F) :
    (l.length ≠ n * c →
      toeplitzMatmul n r c ζ stored (PyOperand.vec l) = PyResult.notImplemented)
    ∧ toeplitzMatmul n r c ζ stored PyOperand.other = PyResult.notImplemented
    ∧ (l.length ≠ m * c →
      circulantMatmul m r c ζ line stored (PyOperand.vec l) = PyResult.notImplemented)
    ∧ circulantMatmul m r c ζ line stored PyOperand.other = PyResult.notImplemented := by
  refine ⟨fun hne => ?_, rfl, fun hne => ?_, rfl⟩
  · simp only [toeplitzMatmul]; rw [if_neg hne]
  · simp only [circulantMatmul]; rw [if_neg hne]

theorem c8_notimplemented_witness :
    (([(1 : ℚ), 2, 3]).length ≠ 2 * 1) ∧
    toeplitzMatmul 2 1 1 (0 : ℚ) (fun _ _ _ => 0) (PyOperand.vec [1, 2, 3])
      = PyResult.notImplemented :=
  ⟨by decide, (c8_notimplemented 2 1 1 2 (0 : ℚ) [] (fun _ _ _ => 0) [1, 2, 3]).1 (by decide)⟩

/-- C8 counterexample: a wrong-length numeric vector and a non-vector operand
produce the very same `NotImplemented` outcome on a concrete 2-block view, so
a shape mismatch is not signalled distinctly from an unsupported operand. -/
theorem c8_counterexample :
    toeplitzMatmul 2 1 1 (numpyTwiddle (evenNbBlocks 2)) (fun _ _ _ => (1 : ℂ))
        (PyOperand.vec [1, 2, 3]) = PyResult.notImplemented
    ∧ toeplitzMatmul 2 1 1 (numpyTwiddle (evenNbBlocks 2)) (fun _ _ _ => (1 : ℂ))
        PyOperand.other = PyResult.notImplemented :=
  ⟨rfl, rfl⟩

/-- C9: `T` holds the per-block transpose of each stored block in the same
order (the original stored row is untouched — all operations are pure); the
double transpose has the same dense matrix as the original, and the transpose's
dense matrix is the transpose of the original's dense matrix. -/
theorem c9_transpose_involution {F : Type} [Field F] (ns r c : ℕ)
    (stored : ℕ → ℕ → ℕ → F) :
    (∀ k, toeplitzTransposeStored stored k = blockTranspose (stored k))
    ∧ (∀ p q, toeplitzDenseEntry ns r c
        (toeplitzTransposeStored (toeplitzTransposeStored stored)) p q
        = toeplitzDenseEntry ns r c stored p q)
    ∧ (∀ p q, p < ns * r → q < ns * c →
        toeplitzDenseEntry ns c r (toeplitzTransposeStored stored) q p
          = toeplitzDenseEntry ns r c stored p q) := by
  refine ⟨fun k => rfl, fun p q => rfl, fun p q hp hq => ?_⟩
  show stored (toeplitzGridEntry ns (q / c) (p / r)) (p % r) (q % c)
      = stored (toeplitzGridEntry ns (p / r) (q / c)) (p % r) (q % c)
  rw [toeplitzGridEntry_eq (div_lt_of_lt_mul hq) (div_lt_of_lt_mul hp),
    toeplitzGridEntry_eq (div_lt_of_lt_mul hp) (div_lt_of_lt_mul hq),
    absDiff_comm (q / c) (p / r)]

theorem c9_transpose_involution_witness :
    (0 < 1 * 1 ∧ 0 < 1 * 1) ∧
    toeplitzDenseEntry 1 1 1 (toeplitzTransposeStored (fun _ _ _ => (1 : ℚ))) 0 0
      = toeplitzDenseEntry 1 1 1 (fun _ _ _ => (1 : ℚ)) 0 0 :=
  ⟨⟨by omega, by omega⟩,
    (c9_transpose_involution 1 1 1 (fun _ _ _ => (1 : ℚ))).2.2 0 0 (by omega) (by omega)⟩

/-- C10: for `ns ≥ 2`, the even circulant embedding's index grid restricted to
rows and columns `0 … ns-1` coincides with the Toeplitz index grid
(`|i - j|`) — the invariant making the truncated padded product recover the
Toeplitz product. -/
theorem c10_leading_submatrix (ns i j : ℕ) (h2 : 2 ≤ ns) (hi : i < ns) (hj : j < ns) :
    circGridEntry (evenNbBlocks ns) (evenBaseline ns) i j = absDiff i j := by
  rw [circGridEntry_eq (evenBaseline_length ns)
    (by unfold evenNbBlocks; omega) (by unfold evenNbBlocks; omega)]
  exact evenBaseline_absDiff h2 hi hj

theorem c10_leading_submatrix_witness :
    (2 ≤ 3 ∧ 0 < 3 ∧ 2 < 3) ∧
    circGridEntry (evenNbBlocks 3) (evenBaseline 3) 0 2 = absDiff 0 2 :=
  ⟨⟨by omega, by omega, by omega⟩,
    c10_leading_submatrix 3 0 2 (by omega) (by omega) (by omega)⟩

end Capytaine
